import Mathlib

/-!
Verification of the `rust-blockchain` node's chain / consensus / mining engine.

This file is a shallow embedding of the program's core:

* `src/models/transaction.rs` — the `Transaction` record;
* `src/models/block.rs` — the `Block` record, `Block::new`, `Block::mine`,
  `Block::generate_block_hash` (serde_json serialization followed by SHA-256,
  formatted as lowercase hex) and `Block::is_mined`;
* `src/models/blockchain.rs` — the `Blockchain` record, `is_block_valid`,
  `try_to_add_a_block`, `is_chain_valid` and `choose_chain`;
* the block-announcement branch of `src/p2p.rs` (`inject_event`).

Machine integers (`u64`, `usize`) are modelled as `Nat`; none of the verified
operations can overflow on the inputs the theorems speak about.  Rust strings
are Lean `String`s (lists of unicode scalar values, as in Rust).  Partial
operations (the `panic` in `choose_chain`, the `expect` in
`try_to_add_a_block`) are made total by returning an explicit outcome type so
that the panic path is visible to the theorems.  `Block::mine`'s unbounded
proof-of-work search is modelled with an explicit fuel parameter; every other
function is a direct transcription.

The serde_json encoding is reproduced byte for byte: struct fields in
declaration order, no whitespace, decimal integers, JSON string escaping
exactly as serde_json performs it (`\"`, `\\`, the five short control escapes
and `\u00XX` for the remaining control characters).  SHA-256 is implemented in
full (FIPS 180-4) over `Nat` words reduced modulo `2^32`.
-/

/-- `src/models/transaction.rs`: `Transaction { sender, receiver, amount: u64 }`. -/
structure Transaction where
  sender : String
  receiver : String
  amount : Nat
deriving DecidableEq

/-- `src/models/block.rs`: `Block { index, timestamp, proof_of_work: u64,
previous_hash: String, transactions: Vec<Transaction>, hash: String }`. -/
structure Block where
  index : Nat
  timestamp : Nat
  proof_of_work : Nat
  previous_hash : String
  transactions : List Transaction
  hash : String
deriving DecidableEq

/-! ## serde_json serialization (`serde_json::to_string`)

The encoder is written over `List Char` so that the injectivity proofs can
proceed by structural induction; `serde_json_to_string` packages the result
as a `String`. -/

/-- Lowercase hexadecimal digit, as used by serde_json's `\u00XX` escapes and
by `format!("{:x}", …)`. -/
def hexChar : Nat → Char
  | 0 => '0'
  | 1 => '1'
  | 2 => '2'
  | 3 => '3'
  | 4 => '4'
  | 5 => '5'
  | 6 => '6'
  | 7 => '7'
  | 8 => '8'
  | 9 => '9'
  | 10 => 'a'
  | 11 => 'b'
  | 12 => 'c'
  | 13 => 'd'
  | 14 => 'e'
  | 15 => 'f'
  | _ => '0'

/-- Numeric value of a lowercase hexadecimal digit. -/
def hexVal (c : Char) : Nat :=
  if 97 ≤ c.toNat then c.toNat - 87 else c.toNat - 48

/-- serde_json's escaping of a single character inside a JSON string:
`"` and `\` get a backslash, the five control characters with short forms use
them, every other control character becomes `\u00XX`, and everything else is
emitted verbatim. -/
def escapeChar (c : Char) : List Char :=
  if c = '"' then ['\\', '"']
  else if c = '\\' then ['\\', '\\']
  else if c.toNat < 32 then
    if c.toNat = 8 then ['\\', 'b']
    else if c.toNat = 9 then ['\\', 't']
    else if c.toNat = 10 then ['\\', 'n']
    else if c.toNat = 12 then ['\\', 'f']
    else if c.toNat = 13 then ['\\', 'r']
    else ['\\', 'u', '0', '0', hexChar (c.toNat / 16), hexChar (c.toNat % 16)]
  else [c]

/-- serde_json's escaping of a whole string body (the surrounding quotes are
emitted by the callers). -/
def escapeList : List Char → List Char
  | [] => []
  | c :: cs => escapeChar c ++ escapeList cs

/-- Decimal digits of a `u64` value, most significant first — the encoding
serde_json uses for integers. -/
def natDigits (n : Nat) : List Char :=
  if n < 10 then [hexChar n]
  else natDigits (n / 10) ++ [hexChar (n % 10)]
decreasing_by exact Nat.div_lt_self (by omega) (by omega)

/-- `{"sender":"` — opening of a serialized `Transaction`. -/
def lit_sender : List Char :=
  ['\x7b', '"', 's', 'e', 'n', 'd', 'e', 'r', '"', ':', '"']

/-- `","receiver":"` — between the sender and receiver fields. -/
def lit_receiver : List Char :=
  [',', '"', 'r', 'e', 'c', 'e', 'i', 'v', 'e', 'r', '"', ':', '"']

/-- `,"amount":` — before the amount field. -/
def lit_amount : List Char :=
  [',', '"', 'a', 'm', 'o', 'u', 'n', 't', '"', ':']

/-- serde_json encoding of one `Transaction`:
`{"sender":"…","receiver":"…","amount":…}`. -/
def serTransactionL (t : Transaction) : List Char :=
  lit_sender ++ (escapeList t.sender.data ++ ('"' ::
    (lit_receiver ++ (escapeList t.receiver.data ++ ('"' ::
      (lit_amount ++ (natDigits t.amount ++ ['\x7d'])))))))

/-- The tail of a serialized `Vec<Transaction>` after its first element:
`]` when no elements remain, otherwise `,` followed by the next element. -/
def serTxTail : List Transaction → List Char
  | [] => [']']
  | t :: ts => ',' :: (serTransactionL t ++ serTxTail ts)

/-- serde_json encoding of a `Vec<Transaction>`: `[]`, or `[e1,…,en]`. -/
def serTxsL : List Transaction → List Char
  | [] => ['[', ']']
  | t :: ts => '[' :: (serTransactionL t ++ serTxTail ts)

/-- `{"index":` — opening of a serialized `Block`. -/
def lit_index : List Char :=
  ['\x7b', '"', 'i', 'n', 'd', 'e', 'x', '"', ':']

/-- `,"timestamp":`. -/
def lit_timestamp : List Char :=
  [',', '"', 't', 'i', 'm', 'e', 's', 't', 'a', 'm', 'p', '"', ':']

/-- `,"proof_of_work":`. -/
def lit_pow : List Char :=
  [',', '"', 'p', 'r', 'o', 'o', 'f', '_', 'o', 'f', '_', 'w', 'o', 'r', 'k', '"', ':']

/-- `,"previous_hash":"`. -/
def lit_prevhash : List Char :=
  [',', '"', 'p', 'r', 'e', 'v', 'i', 'o', 'u', 's', '_', 'h', 'a', 's', 'h', '"', ':', '"']

/-- `","transactions":`. -/
def lit_transactions : List Char :=
  [',', '"', 't', 'r', 'a', 'n', 's', 'a', 'c', 't', 'i', 'o', 'n', 's', '"', ':']

/-- `,"hash":"`. -/
def lit_hash : List Char :=
  [',', '"', 'h', 'a', 's', 'h', '"', ':', '"']

/-- serde_json encoding of a `Block` (fields in declaration order, exactly as
`#[derive(Serialize)]` emits them). -/
def serBlockL (b : Block) : List Char :=
  lit_index ++ (natDigits b.index ++
    (lit_timestamp ++ (natDigits b.timestamp ++
      (lit_pow ++ (natDigits b.proof_of_work ++
        (lit_prevhash ++ (escapeList b.previous_hash.data ++ ('"' ::
          (lit_transactions ++ (serTxsL b.transactions ++
            (lit_hash ++ (escapeList b.hash.data ++ ('"' :: ['\x7d'])))))))))))))

/-- `serde_json::to_string(&block).unwrap()` — the serializer cannot fail on
a `Block`, so the embedding is total. -/
def serde_json_to_string (b : Block) : String :=
  String.mk (serBlockL b)

/-! ## UTF-8 and SHA-256 (the `sha2` crate, FIPS 180-4)

`Sha256::digest` hashes the UTF-8 bytes of the serialized block;
`format!("{:x}", digest)` prints the 32 digest bytes as 64 lowercase hex
digits.  Words are `Nat`s reduced modulo `2^32` wherever the Rust code's
`u32` arithmetic wraps. -/

/-- UTF-8 encoding of one unicode scalar value. -/
def utf8EncodeChar (n : Nat) : List Nat :=
  if n < 128 then [n]
  else if n < 2048 then [192 + n / 64, 128 + n % 64]
  else if n < 65536 then [224 + n / 4096, 128 + (n / 64) % 64, 128 + n % 64]
  else [240 + n / 262144, 128 + (n / 4096) % 64, 128 + (n / 64) % 64, 128 + n % 64]

/-- UTF-8 bytes of a character list. -/
def utf8List : List Char → List Nat
  | [] => []
  | c :: cs => utf8EncodeChar c.toNat ++ utf8List cs

/-- UTF-8 bytes of a string (`str::as_bytes`). -/
def utf8Bytes (s : String) : List Nat :=
  utf8List s.data

/-- Reduction modulo `2^32`, i.e. `u32` wrapping. -/
def w32 (x : Nat) : Nat := x % 4294967296

/-- 32-bit right rotation (valid for inputs below `2^32`). -/
def rotr (n x : Nat) : Nat := x / 2 ^ n + x % 2 ^ n * 2 ^ (32 - n)

/-- 32-bit logical right shift. -/
def shr (n x : Nat) : Nat := x / 2 ^ n

/-- SHA-256 Σ₀. -/
def bsig0 (x : Nat) : Nat := rotr 2 x ^^^ rotr 13 x ^^^ rotr 22 x

/-- SHA-256 Σ₁. -/
def bsig1 (x : Nat) : Nat := rotr 6 x ^^^ rotr 11 x ^^^ rotr 25 x

/-- SHA-256 σ₀. -/
def ssig0 (x : Nat) : Nat := rotr 7 x ^^^ rotr 18 x ^^^ shr 3 x

/-- SHA-256 σ₁. -/
def ssig1 (x : Nat) : Nat := rotr 17 x ^^^ rotr 19 x ^^^ shr 10 x

/-- SHA-256 `Ch(x,y,z)`; complement taken inside 32 bits. -/
def chf (x y z : Nat) : Nat := x &&& y ^^^ (x ^^^ 4294967295) &&& z

/-- SHA-256 `Maj(x,y,z)`. -/
def majf (x y z : Nat) : Nat := x &&& y ^^^ x &&& z ^^^ y &&& z

/-- The 64 SHA-256 round constants (FIPS 180-4 §4.2.2, written in decimal). -/
def kConstants : List Nat :=
  [1116352408, 1899447441, 3049323471, 3921009573, 961987163, 1508970993,
   2453635748, 2870763221, 3624381080, 310598401, 607225278, 1426881987,
   1925078388, 2162078206, 2614888103, 3248222580, 3835390401, 4022224774,
   264347078, 604807628, 770255983, 1249150122, 1555081692, 1996064986,
   2554220882, 2821834349, 2952996808, 3210313671, 3336571891, 3584528711,
   113926993, 338241895, 666307205, 773529912, 1294757372, 1396182291,
   1695183700, 1986661051, 2177026350, 2456956037, 2730485921, 2820302411,
   3259730800, 3345764771, 3516065817, 3600352804, 4094571909, 275423344,
   430227734, 506948616, 659060556, 883997877, 958139571, 1322822218,
   1537002063, 1747873779, 1955562222, 2024104815, 2227730452, 2361852424,
   2428436474, 2756734187, 3204031479, 3329325298]

/-- The SHA-256 initial hash value H⁽⁰⁾ (FIPS 180-4 §5.3.3, in decimal). -/
def hInitial : List Nat :=
  [1779033703, 3144134277, 1013904242, 2773480762,
   1359893119, 2600822924, 528734635, 1541459225]

/-- Big-endian bytes of `n`, fixed width `k` (used for the 64-bit length
field of the padding). -/
def bytesBE : Nat → Nat → List Nat
  | 0, _ => []
  | k + 1, n => bytesBE k (n / 256) ++ [n % 256]

/-- SHA-256 message padding: `0x80`, zeros to 56 mod 64, then the bit length
as a big-endian `u64`. -/
def sha_pad (msg : List Nat) : List Nat :=
  msg ++ 128 :: List.replicate ((64 - (msg.length + 9) % 64) % 64) 0 ++
    bytesBE 8 (8 * msg.length)

/-- Four big-endian bytes to one 32-bit word, over a whole block. -/
def bytesToWords : List Nat → List Nat
  | b0 :: b1 :: b2 :: b3 :: rest => (((b0 * 256 + b1) * 256 + b2) * 256 + b3) :: bytesToWords rest
  | _ => []

/-- Split the padded message into 64-byte blocks. -/
def chunk64 : List Nat → List (List Nat)
  | [] => []
  | b :: bs => ((b :: bs).take 64) :: chunk64 (bs.drop 63)
termination_by l => l.length
decreasing_by simp [List.length_drop]; omega

/-- Message-schedule extension: append `k` further words, each computed from
the words 2, 7, 15 and 16 positions back. -/
def extendSchedule : Nat → List Nat → List Nat
  | 0, ws => ws
  | k + 1, ws =>
    extendSchedule k (ws ++ [w32 (ssig1 (ws.getD (ws.length - 2) 0) + ws.getD (ws.length - 7) 0 +
      ssig0 (ws.getD (ws.length - 15) 0) + ws.getD (ws.length - 16) 0)])

/-- The eight 32-bit working variables of the compression function. -/
structure Sha8 where
  a : Nat
  b : Nat
  c : Nat
  d : Nat
  e : Nat
  f : Nat
  g : Nat
  h : Nat

/-- One round of the SHA-256 compression function. -/
def sha_round (s : Sha8) (kw : Nat × Nat) : Sha8 :=
  let t1 := w32 (s.h + bsig1 s.e + chf s.e s.f s.g + kw.1 + kw.2)
  let t2 := w32 (bsig0 s.a + majf s.a s.b s.c)
  { a := w32 (t1 + t2), b := s.a, c := s.b, d := s.c,
    e := w32 (s.d + t1), f := s.e, g := s.f, h := s.g }

/-- Compression of one 64-byte block into the running hash value. -/
def compressBlock (hs : List Nat) (chunk : List Nat) : List Nat :=
  let ws := extendSchedule 48 (bytesToWords chunk)
  let s0 : Sha8 := { a := hs.getD 0 0, b := hs.getD 1 0, c := hs.getD 2 0, d := hs.getD 3 0,
                     e := hs.getD 4 0, f := hs.getD 5 0, g := hs.getD 6 0, h := hs.getD 7 0 }
  let sf := (kConstants.zip ws).foldl sha_round s0
  [w32 (hs.getD 0 0 + sf.a), w32 (hs.getD 1 0 + sf.b), w32 (hs.getD 2 0 + sf.c),
   w32 (hs.getD 3 0 + sf.d), w32 (hs.getD 4 0 + sf.e), w32 (hs.getD 5 0 + sf.f),
   w32 (hs.getD 6 0 + sf.g), w32 (hs.getD 7 0 + sf.h)]

/-- The eight final hash words of a SHA-256 computation. -/
def sha256Words (msg : List Nat) : List Nat :=
  (chunk64 (sha_pad msg)).foldl compressBlock hInitial

/-- The digest words combined into one 256-bit natural number (big-endian,
exactly the number the 32 digest bytes denote). -/
def digestNat (ws : List Nat) : Nat :=
  ws.foldl (fun acc w => acc * 4294967296 + w) 0

/-- The SHA-256 digest of a byte sequence, as a natural number below `2^256`. -/
def sha256Nat (msg : List Nat) : Nat :=
  digestNat (sha256Words msg)

/-- Fixed-width lowercase hexadecimal digits of `n` (most significant first). -/
def hexPad : Nat → Nat → List Char
  | 0, _ => []
  | k + 1, n => hexPad k (n / 16) ++ [hexChar (n % 16)]

/-- `format!("{:x}", Sha256::digest(bytes))`: the 32 digest bytes printed as
64 lowercase hex digits. -/
def sha256hex (msg : List Nat) : String :=
  String.mk (hexPad 64 (sha256Nat msg))

/-! ## `src/models/block.rs` -/

/-- Rust's `str::starts_with`: the argument is a prefix of the receiver. -/
def starts_with (s prefix_str : String) : Bool :=
  List.isPrefixOf prefix_str.data s.data

/-- Rust's `str::repeat`: `n` concatenated copies. -/
def str_repeat (s : String) : Nat → String
  | 0 => ""
  | n + 1 => s ++ str_repeat s n

/-- `Block::generate_block_hash`: clone the block, clear its `hash` field,
serialize with serde_json and hash the bytes with SHA-256, printing the
digest in lowercase hex. -/
def Block.generate_block_hash (b : Block) : String :=
  sha256hex (utf8Bytes (serde_json_to_string { b with hash := "" }))

/-- `Block::new(index, previous_hash, transactions)`.  `Utc::now()` is an
input of the embedding (`now_millis`); `proof_of_work` starts at
`u64::default()` and `hash` at `String::default()`. -/
def Block.new (index : Nat) (previous_hash : String) (transactions : List Transaction)
    (now_millis : Nat) : Block :=
  { index := index, timestamp := now_millis, proof_of_work := 0,
    previous_hash := previous_hash, transactions := transactions, hash := "" }

/-- `Block::is_mined(difficulty)`: the stored hash has the required number of
leading `'0'` characters. -/
def Block.is_mined (b : Block) (difficulty : Nat) : Bool :=
  starts_with b.hash (str_repeat "0" difficulty)

/-! ## `src/models/blockchain.rs` -/

/-- The `Blockchain` struct. -/
structure Blockchain where
  genesis_block : Block
  chain : List Block
  difficulty : Nat

/-- `Block::mine(&mut self, blockchain, mining_flag)`: while the flag is
raised and the stored hash does not meet the difficulty, increment
`proof_of_work` and recompute the hash.  The loop body never writes
`mining_flag`, so the flag is a constant of the call; the unbounded search is
modelled by a fuel parameter (the result for all fuels determines the
behaviour of the loop). -/
def Block.mine (blockchain : Blockchain) (mining_flag : Bool) : Nat → Block → Block
  | 0, b => b
  | fuel + 1, b =>
    if mining_flag then
      if !(starts_with b.hash (str_repeat "0" blockchain.difficulty)) then
        let incremented := { b with proof_of_work := b.proof_of_work + 1 }
        Block.mine blockchain mining_flag fuel
          { incremented with hash := incremented.generate_block_hash }
      else b
    else b

/-- `Blockchain::is_block_valid(block, previous_block)`: rejects on a
`previous_hash` mismatch or a difficulty failure; the index-continuity and
hash-recompute checks only print a message and fall through to `true`. -/
def Blockchain.is_block_valid (bc : Blockchain) (block previous_block : Block) : Bool :=
  if block.previous_hash ≠ previous_block.hash then
    false
  else if !(starts_with block.hash (str_repeat "0" bc.difficulty)) then
    false
  else if block.index ≠ previous_block.index + 1 then
    true
  else if block.generate_block_hash ≠ block.hash then
    true
  else
    true

/-- `Blockchain::try_to_add_a_block(block)`: read the chain's last block (the
`expect` panics on an empty chain, modelled as `none`), then push the block
exactly when `is_block_valid` accepts it. -/
def Blockchain.try_to_add_a_block (bc : Blockchain) (block : Block) : Option Blockchain :=
  match bc.chain.getLast? with
  | none => none
  | some last_block =>
    if bc.is_block_valid block last_block then
      some { bc with chain := bc.chain ++ [block] }
    else
      some bc

/-- `Blockchain::is_chain_valid(chain)`: for every index from 0 to
`chain.len() - 1`, skip index 0 and validate the block against its
predecessor, stopping at the first failure.  The `expect`s cannot fail for
indices drawn from the range, so the `false` fallback of the match is dead
code. -/
def Blockchain.is_chain_valid (bc : Blockchain) (chain : List Block) : Bool :=
  (List.range chain.length).all fun block_index =>
    if block_index = 0 then
      true
    else
      match chain[block_index - 1]?, chain[block_index]? with
      | some first, some second => bc.is_block_valid second first
      | _, _ => false

/-- Outcome of `Blockchain::choose_chain`: either a returned chain or the
`panic` that terminates the process. -/
inductive ChooseChainResult where
  | ok (chain : List Block)
  | panicked (msg : String)
deriving DecidableEq

/-- `Blockchain::choose_chain(local, remote)`: both valid → the longer one
(ties → `local`); exactly one valid → the valid one; neither valid → the Rust
code panics with "Both chains are invalid". -/
def Blockchain.choose_chain (bc : Blockchain) (local_chain remote : List Block) :
    ChooseChainResult :=
  let is_local_valid := bc.is_chain_valid local_chain
  let is_remote_valid := bc.is_chain_valid remote
  if is_local_valid && is_remote_valid then
    if local_chain.length ≥ remote.length then
      ChooseChainResult.ok local_chain
    else
      ChooseChainResult.ok remote
  else if !is_local_valid && is_remote_valid then
    ChooseChainResult.ok remote
  else if is_local_valid && !is_remote_valid then
    ChooseChainResult.ok local_chain
  else
    ChooseChainResult.panicked "Both chains are invalid"

/-! ## The block-announcement branch of `src/p2p.rs::inject_event` -/

/-- The two branches `inject_event` can take for a decoded `Block` message. -/
inductive AnnounceBranch where
  | already_mined
  | delegate_mining
deriving DecidableEq

/-- The branch selection of `inject_event` for a received block:
`if block.is_mined(self.blockchain.difficulty)` stop mining and try to add
it, else mine it locally. -/
def block_announce_branch (bc : Blockchain) (block : Block) : AnnounceBranch :=
  if block.is_mined bc.difficulty then
    AnnounceBranch.already_mined
  else
    AnnounceBranch.delegate_mining

/-! ## Auxiliary decoders used by the serialization-injectivity proofs -/

/-- Decimal-digit test. -/
def isDig (c : Char) : Bool := 48 ≤ c.toNat && c.toNat ≤ 57

/-- The first character of `r`, if any, is not a decimal digit — the
side-condition under which a maximal digit run is determined by its
surroundings. -/
def headNotDig (r : List Char) : Prop := ∀ c, r.head? = some c → isDig c = false

/-- Numeric value of a list of decimal digits (most significant first). -/
def natVal (l : List Char) : Nat :=
  l.foldl (fun a c => 10 * a + (c.toNat - 48)) 0

/-- Does serde_json escape this character? -/
def needsEscape (c : Char) : Bool :=
  decide (c = '"') || decide (c = '\\') || decide (c.toNat < 32)

/-- Decoder for the part of an escape chunk after its leading backslash:
returns the scalar value the chunk denotes and the remaining input.  Inverse
of the tail of `escapeChar` on escaped characters. -/
def unescEsc : List Char → Option (Nat × List Char)
  | '"' :: r => some (34, r)
  | '\\' :: r => some (92, r)
  | 'b' :: r => some (8, r)
  | 't' :: r => some (9, r)
  | 'n' :: r => some (10, r)
  | 'f' :: r => some (12, r)
  | 'r' :: r => some (13, r)
  | 'u' :: '0' :: '0' :: d1 :: d2 :: r => some (16 * hexVal d1 + hexVal d2, r)
  | _ => none

/-- The block family used to exhibit a SHA-256 collision by pigeonhole: all
fields fixed except `previous_hash`, which is a run of `n` copies of `'a'`. -/
def phBlock (n : Nat) : Block :=
  { index := 0, timestamp := 0, proof_of_work := 0,
    previous_hash := String.mk (List.replicate n 'a'), transactions := [], hash := "" }

/-! ## Concrete sample data used to instantiate the theorems -/

/-- A genesis-shaped block: index 0, empty `previous_hash`, zero
`proof_of_work`, empty hash, no transactions. -/
def sampleGenesis : Block :=
  { index := 0, timestamp := 0, proof_of_work := 0, previous_hash := "",
    transactions := [], hash := "" }

/-- A blockchain at difficulty 1 whose chain holds the sample genesis. -/
def bcSample : Blockchain :=
  { genesis_block := sampleGenesis, chain := [sampleGenesis], difficulty := 1 }

/-- A blockchain at difficulty 0 (every hash meets difficulty 0). -/
def bcDiff0 : Blockchain :=
  { genesis_block := sampleGenesis, chain := [sampleGenesis], difficulty := 0 }

/-- A block whose `previous_hash` matches the sample genesis but whose index
skips ahead (the only failing check is index continuity). -/
def blkIndexSkip : Block :=
  { index := 5, timestamp := 0, proof_of_work := 0, previous_hash := "",
    transactions := [], hash := "" }

/-- A block whose `previous_hash` does not match the sample genesis hash. -/
def blkBadPrev : Block :=
  { index := 1, timestamp := 0, proof_of_work := 0, previous_hash := "x",
    transactions := [], hash := "" }

/-- An invalid two-block chain (broken previous-hash linkage). -/
def chainBadLocal : List Block := [sampleGenesis, blkBadPrev]

/-- Another invalid two-block chain. -/
def chainBadRemote : List Block :=
  [sampleGenesis,
   { index := 1, timestamp := 0, proof_of_work := 0, previous_hash := "y",
     transactions := [], hash := "" }]

/-- A third invalid chain, used by the amended-claim witness. -/
def chainBadLocal2 : List Block :=
  [sampleGenesis,
   { index := 2, timestamp := 0, proof_of_work := 0, previous_hash := "z",
     transactions := [], hash := "" }]

/-- A fourth invalid chain, used by the amended-claim witness. -/
def chainBadRemote2 : List Block :=
  [sampleGenesis,
   { index := 3, timestamp := 0, proof_of_work := 0, previous_hash := "w",
     transactions := [], hash := "" }]

/-! ## Helper lemmas -/

/-- String concatenation concatenates the underlying character lists. -/
theorem string_append_data (s t : String) : (s ++ t).data = s.data ++ t.data := by
  cases s; cases t; rfl

/-- Two strings with the same character list are equal. -/
theorem string_data_inj {s t : String} (h : s.data = t.data) : s = t := by
  cases s; cases t; exact congrArg String.mk h

/-- `List.isPrefixOf` in terms of `take`. -/
theorem isPrefixOf_iff_take (p l : List Char) :
    List.isPrefixOf p l = true ↔ List.take p.length l = p := by
  induction p generalizing l with
  | nil => simp [List.isPrefixOf]
  | cons a as ih =>
    cases l with
    | nil => simp [List.isPrefixOf]
    | cons b bs =>
      simp only [List.isPrefixOf, Bool.and_eq_true, beq_iff_eq, ih bs, List.length_cons,
        List.take_succ_cons, List.cons.injEq]
      constructor
      · rintro ⟨h1, h2⟩; exact ⟨h1.symm, h2⟩
      · rintro ⟨h1, h2⟩; exact ⟨h1.symm, h2⟩

/-- The characters of `"0".repeat(d)`. -/
theorem str_repeat_zero_data (d : Nat) :
    (str_repeat "0" d).data = List.replicate d '0' := by
  induction d with
  | zero => rfl
  | succ n ih =>
    show (("0" : String) ++ str_repeat "0" n).data = _
    rw [string_append_data, ih]
    rfl

/-- The difficulty test of the source (`starts_with` against a run of `'0'`s)
expressed through `take`/`replicate`. -/
theorem starts_with_zeros_iff (s : String) (d : Nat) :
    starts_with s (str_repeat "0" d) = true ↔
      s.data.take d = List.replicate d '0' := by
  rw [starts_with, str_repeat_zero_data, isPrefixOf_iff_take, List.length_replicate]

/-! ## Claims C1–C6 and C10 -/

/-- C1: `is_block_valid` returns `false` exactly when the previous-hash
linkage fails or the stored hash lacks `difficulty` leading `'0'`s; when both
of those checks pass, a failing index-continuity or hash-recompute check is
only logged and the function still returns `true`. -/
theorem C1_is_block_valid_rejects_only_linkage_and_difficulty
    (bc : Blockchain) (block previous_block : Block) :
    (bc.is_block_valid block previous_block = false ↔
      (block.previous_hash ≠ previous_block.hash ∨
        ¬ block.hash.data.take bc.difficulty = List.replicate bc.difficulty '0')) ∧
    (block.previous_hash = previous_block.hash →
      block.hash.data.take bc.difficulty = List.replicate bc.difficulty '0' →
      (block.index ≠ previous_block.index + 1 ∨ block.generate_block_hash ≠ block.hash) →
      bc.is_block_valid block previous_block = true) := by
  have hsw := starts_with_zeros_iff block.hash bc.difficulty
  rw [Blockchain.is_block_valid]
  split_ifs with h1 h2 h3 h4 <;>
    simp_all [Bool.not_eq_true]

/-- Witness for C1 at a concrete input: matching previous hash, difficulty 0,
failing index continuity — the block is still accepted. -/
theorem C1_witness : bcDiff0.is_block_valid blkIndexSkip sampleGenesis = true :=
  (C1_is_block_valid_rejects_only_linkage_and_difficulty bcDiff0 blkIndexSkip sampleGenesis).2
    rfl rfl (Or.inl (by decide))

/-- C2 (amended): when neither chain is valid, `choose_chain` panics with
"Both chains are invalid" instead of returning an error to its caller. -/
theorem C2_amended_choose_chain_panics (bc : Blockchain) (local_chain remote : List Block)
    (hl : bc.is_chain_valid local_chain = false) (hr : bc.is_chain_valid remote = false) :
    bc.choose_chain local_chain remote =
      ChooseChainResult.panicked "Both chains are invalid" := by
  simp [Blockchain.choose_chain, hl, hr]

/-- Witness for the amended C2 at concrete invalid chains. -/
theorem C2_amended_witness :
    bcSample.choose_chain chainBadLocal2 chainBadRemote2 =
      ChooseChainResult.panicked "Both chains are invalid" :=
  C2_amended_choose_chain_panics bcSample chainBadLocal2 chainBadRemote2
    (by decide) (by decide)

/-- Counterexample to C2 as stated: at these concrete invalid chains the code
takes the panic path — the process is terminated rather than an error being
surfaced to the caller with the local chain retained. -/
theorem C2_counterexample_both_invalid_panics :
    bcSample.is_chain_valid chainBadLocal = false ∧
    bcSample.is_chain_valid chainBadRemote = false ∧
    bcSample.choose_chain chainBadLocal chainBadRemote =
      ChooseChainResult.panicked "Both chains are invalid" := by
  refine ⟨by decide, by decide, by decide⟩

/-- C3: with at least one valid side, `choose_chain` returns the longer chain
when both are valid (ties keep the local chain), and the valid side when
exactly one is valid, regardless of lengths. -/
theorem C3_choose_chain_with_a_valid_side (bc : Blockchain) (local_chain remote : List Block) :
    (bc.is_chain_valid local_chain = true → bc.is_chain_valid remote = true →
      (remote.length ≤ local_chain.length →
        bc.choose_chain local_chain remote = ChooseChainResult.ok local_chain) ∧
      (local_chain.length < remote.length →
        bc.choose_chain local_chain remote = ChooseChainResult.ok remote)) ∧
    (bc.is_chain_valid local_chain = true → bc.is_chain_valid remote = false →
      bc.choose_chain local_chain remote = ChooseChainResult.ok local_chain) ∧
    (bc.is_chain_valid local_chain = false → bc.is_chain_valid remote = true →
      bc.choose_chain local_chain remote = ChooseChainResult.ok remote) := by
  refine ⟨fun hl hr => ⟨fun hlen => ?_, fun hlen => ?_⟩,
    fun hl hr => ?_, fun hl hr => ?_⟩
  · simp [Blockchain.choose_chain, hl, hr, ge_iff_le, hlen]
  · have hgt : ¬ remote.length ≤ local_chain.length := by omega
    simp [Blockchain.choose_chain, hl, hr, ge_iff_le, hgt]
  · simp [Blockchain.choose_chain, hl, hr]
  · simp [Blockchain.choose_chain, hl, hr]

/-- Witness for C3: both sides valid, lengths 1 and 0 — the longer (local)
chain is returned. -/
theorem C3_witness :
    bcSample.choose_chain [sampleGenesis] [] = ChooseChainResult.ok [sampleGenesis] :=
  ((C3_choose_chain_with_a_valid_side bcSample [sampleGenesis] []).1
    (by decide) (by decide)).1 (by decide)

/-- C4: on a chain with tip `tip`, `try_to_add_a_block` appends exactly when
`is_block_valid` accepts the block against the tip, returns the chain
completely unchanged when validation fails (in particular on a stale
`previous_hash`), and never panics. -/
theorem C4_try_to_add_appends_iff_valid (bc : Blockchain) (block tip : Block)
    (htip : bc.chain.getLast? = some tip) :
    (bc.is_block_valid block tip = true →
      bc.try_to_add_a_block block = some { bc with chain := bc.chain ++ [block] }) ∧
    (bc.is_block_valid block tip = false →
      bc.try_to_add_a_block block = some bc) ∧
    (block.previous_hash ≠ tip.hash →
      bc.try_to_add_a_block block = some bc) := by
  refine ⟨fun hv => ?_, fun hv => ?_, fun hv => ?_⟩
  · simp [Blockchain.try_to_add_a_block, htip, hv]
  · simp [Blockchain.try_to_add_a_block, htip, hv]
  · have hfalse : bc.is_block_valid block tip = false := by
      rw [Blockchain.is_block_valid, if_pos hv]
    simp [Blockchain.try_to_add_a_block, htip, hfalse]

/-- Witness for C4: a block with a stale `previous_hash` leaves the sample
chain unchanged. -/
theorem C4_witness : bcSample.try_to_add_a_block blkBadPrev = some bcSample :=
  (C4_try_to_add_appends_iff_valid bcSample blkBadPrev sampleGenesis (by decide)).2.2
    (by decide)

/-- C5: the mining loop checks the cancellation flag at the top of every
iteration, so a call entered with the flag already cleared performs zero
proof-of-work iterations and returns the block unchanged (in particular its
`proof_of_work` and `hash` fields), for every fuel bound on the loop. -/
theorem C5_mine_with_cleared_flag_is_noop (blockchain : Blockchain) (fuel : Nat) (b : Block) :
    Block.mine blockchain false fuel b = b := by
  cases fuel <;> rfl

/-- C6: `is_chain_valid` holds exactly when every adjacent pair of blocks
passes `is_block_valid` (the block at position 0 is never itself validated),
and every chain of length 0 or 1 is accepted. -/
theorem C6_is_chain_valid_pairwise (bc : Blockchain) (chain : List Block) :
    (bc.is_chain_valid chain = true ↔
      ∀ (i : Nat) (first second : Block), chain[i]? = some first →
        chain[i + 1]? = some second → bc.is_block_valid second first = true) ∧
    (chain.length ≤ 1 → bc.is_chain_valid chain = true) := by
  constructor
  · rw [Blockchain.is_chain_valid, List.all_eq_true]
    constructor
    · intro hall i first second h1 h2
      have hlt : i + 1 < chain.length := by
        have := List.getElem?_eq_some.mp h2
        exact this.1
      have hx := hall (i + 1) (List.mem_range.mpr hlt)
      simp only [Nat.succ_ne_zero, if_false, Nat.add_sub_cancel] at hx
      rw [h1, h2] at hx
      exact hx
    · intro hp i hi
      rw [List.mem_range] at hi
      cases i with
      | zero => simp
      | succ j =>
        have hj : j < chain.length := by omega
        have h1 : chain[j]? = some chain[j] := List.getElem?_eq_getElem hj
        have h2 : chain[j + 1]? = some chain[j + 1] := List.getElem?_eq_getElem hi
        simp only [Nat.succ_ne_zero, if_false, Nat.add_sub_cancel]
        rw [h1, h2]
        exact hp j _ _ h1 h2
  · intro h
    match chain with
    | [] => rfl
    | [a] => rfl
    | a :: b :: t => simp [List.length_cons] at h

/-- C10: a freshly created block has `proof_of_work = 0` and an empty hash;
for every difficulty of at least 1 it is not mined, so the block-announce
handler takes the mining-delegation branch for it. -/
theorem C10_new_block_is_unmined (index : Nat) (previous_hash : String)
    (transactions : List Transaction) (now_millis : Nat) :
    ((Block.new index previous_hash transactions now_millis).proof_of_work = 0 ∧
      (Block.new index previous_hash transactions now_millis).hash = "") ∧
    (∀ difficulty : Nat, 1 ≤ difficulty →
      (Block.new index previous_hash transactions now_millis).is_mined difficulty = false) ∧
    (∀ bc : Blockchain, 1 ≤ bc.difficulty →
      block_announce_branch bc (Block.new index previous_hash transactions now_millis) =
        AnnounceBranch.delegate_mining) := by
  have hmined : ∀ difficulty : Nat, 1 ≤ difficulty →
      (Block.new index previous_hash transactions now_millis).is_mined difficulty = false := by
    intro difficulty hd
    match difficulty, hd with
    | d + 1, _ =>
      show starts_with "" (str_repeat "0" (d + 1)) = false
      rw [starts_with]
      have : (str_repeat "0" (d + 1)).data = '0' :: List.replicate d '0' := by
        rw [str_repeat_zero_data]; rfl
      rw [this]
      rfl
  refine ⟨⟨rfl, rfl⟩, hmined, fun bc hd => ?_⟩
  rw [block_announce_branch, hmined bc.difficulty hd]
  rfl

/-- Witness for C10 at concrete inputs (difficulty 1). -/
theorem C10_witness :
    block_announce_branch bcSample (Block.new 1 "g" [] 0) = AnnounceBranch.delegate_mining :=
  (C10_new_block_is_unmined 1 "g" [] 0).2.2 bcSample (by decide)

/-! ## Injectivity of the serde_json encoding

The encoding of a block is parsed back off the wire format: decimal digit
runs are determined by their non-digit terminator, escaped string bodies by
their closing quote, and the fixed literal fragments separate the fields.
This gives injectivity of `serBlockL`, which the canonical-hash theorems
need. -/

/-- `Char.toNat` is injective. -/
theorem char_toNat_inj {c1 c2 : Char} (h : c1.toNat = c2.toNat) : c1 = c2 := by
  apply Char.ext
  apply UInt32.ext
  simpa [Char.toNat, UInt32.toNat] using h

/-- `hexChar` of a digit value is `48 + n` as a scalar value. -/
theorem hexChar_toNat_lt_10 (n : Nat) (h : n < 10) : (hexChar n).toNat = 48 + n := by
  interval_cases n <;> decide

/-- Every character emitted by `natDigits` is a decimal digit. -/
theorem natDigits_all_dig (n : Nat) : ∀ c ∈ natDigits n, isDig c = true := by
  induction n using Nat.strong_induction_on with
  | _ n ih =>
    rw [natDigits]
    split
    · next h =>
      intro c hc
      simp only [List.mem_singleton] at hc
      subst hc
      simp only [isDig, hexChar_toNat_lt_10 n h, Bool.and_eq_true, decide_eq_true_eq]
      omega
    · next h =>
      intro c hc
      rw [List.mem_append] at hc
      rcases hc with hc | hc
      · exact ih (n / 10) (Nat.div_lt_self (by omega) (by omega)) c hc
      · simp only [List.mem_singleton] at hc
        subst hc
        have h10 : n % 10 < 10 := Nat.mod_lt _ (by omega)
        simp only [isDig, hexChar_toNat_lt_10 _ h10, Bool.and_eq_true, decide_eq_true_eq]
        omega

/-- Appending one digit multiplies the value by ten. -/
theorem natVal_append_digit (l : List Char) (c : Char) :
    natVal (l ++ [c]) = 10 * natVal l + (c.toNat - 48) := by
  simp [natVal, List.foldl_append]

/-- `natVal` recovers the number `natDigits` encoded. -/
theorem natVal_natDigits (n : Nat) : natVal (natDigits n) = n := by
  induction n using Nat.strong_induction_on with
  | _ n ih =>
    rw [natDigits]
    split
    · next h =>
      simp only [natVal, List.foldl_cons, List.foldl_nil, hexChar_toNat_lt_10 n h]
      omega
    · next h =>
      rw [natVal_append_digit, ih (n / 10) (Nat.div_lt_self (by omega) (by omega)),
        hexChar_toNat_lt_10 _ (Nat.mod_lt _ (by omega))]
      omega

/-- `natDigits` is injective. -/
theorem natDigits_inj {m n : Nat} (h : natDigits m = natDigits n) : m = n := by
  have hm := natVal_natDigits m
  rw [h, natVal_natDigits] at hm
  omega

/-- A run of digits followed by a non-digit is determined: if two such runs
concatenated with their rests agree, the runs and the rests agree. -/
theorem digits_split (l1 : List Char) : ∀ (l2 r1 r2 : List Char),
    (∀ c ∈ l1, isDig c = true) → (∀ c ∈ l2, isDig c = true) →
    headNotDig r1 → headNotDig r2 →
    l1 ++ r1 = l2 ++ r2 → l1 = l2 ∧ r1 = r2 := by
  induction l1 with
  | nil =>
    intro l2 r1 r2 hd1 hd2 hr1 hr2 heq
    cases l2 with
    | nil => simpa using heq
    | cons c l2t =>
      simp only [List.nil_append, List.cons_append] at heq
      have hc := hd2 c (by simp)
      have hcontra := hr1 c (by rw [heq]; rfl)
      rw [hc] at hcontra
      cases hcontra
  | cons a l1t ih =>
    intro l2 r1 r2 hd1 hd2 hr1 hr2 heq
    cases l2 with
    | nil =>
      simp only [List.nil_append, List.cons_append] at heq
      have ha := hd1 a (by simp)
      have hcontra := hr2 a (by rw [← heq]; rfl)
      rw [ha] at hcontra
      cases hcontra
    | cons b l2t =>
      simp only [List.cons_append, List.cons.injEq] at heq
      obtain ⟨hab, htail⟩ := heq
      obtain ⟨h1, h2⟩ := ih l2t r1 r2 (fun c hc => hd1 c (by simp [hc]))
        (fun c hc => hd2 c (by simp [hc])) hr1 hr2 htail
      exact ⟨by rw [hab, h1], h2⟩

/-- Cancellation for decimal runs inside the wire format. -/
theorem natDigits_append_inj {m n : Nat} {r1 r2 : List Char}
    (hr1 : headNotDig r1) (hr2 : headNotDig r2)
    (h : natDigits m ++ r1 = natDigits n ++ r2) : m = n ∧ r1 = r2 := by
  obtain ⟨h1, h2⟩ := digits_split (natDigits m) (natDigits n) r1 r2
    (natDigits_all_dig m) (natDigits_all_dig n) hr1 hr2 h
  exact ⟨natDigits_inj h1, h2⟩

/-- A cons whose head is not a digit satisfies `headNotDig`. -/
theorem headNotDig_cons {c : Char} (hc : isDig c = false) (r : List Char) :
    headNotDig (c :: r) := by
  intro d hd
  simp only [List.head?] at hd
  injection hd with hd
  rwa [← hd]

/-- Round-trip of hexadecimal digits in the range a `\u00XX` escape uses. -/
theorem hexVal_hexChar (k : Nat) (h : k < 16) : hexVal (hexChar k) = k := by
  interval_cases k <;> decide

/-- A character serde_json leaves alone is emitted verbatim. -/
theorem escapeChar_of_plain {c : Char} (h : needsEscape c = false) : escapeChar c = [c] := by
  simp only [needsEscape, Bool.or_eq_false_iff, decide_eq_false_iff_not] at h
  rw [escapeChar, if_neg h.1.1, if_neg h.1.2, if_neg h.2]

/-- A character serde_json escapes produces a chunk led by a backslash. -/
theorem escapeChar_of_escaped {c : Char} (h : needsEscape c = true) :
    ∃ t, escapeChar c = '\\' :: t := by
  simp only [needsEscape, Bool.or_eq_true, decide_eq_true_eq] at h
  rw [escapeChar]
  rcases h with (h1 | h2) | h3
  · rw [if_pos h1]; exact ⟨_, rfl⟩
  · rw [if_neg, if_pos h2]
    · exact ⟨_, rfl⟩
    · intro hq; rw [hq] at h2; cases h2
  · by_cases h1 : c = '"'
    · rw [if_pos h1]; exact ⟨_, rfl⟩
    by_cases h2 : c = '\\'
    · rw [if_neg h1, if_pos h2]; exact ⟨_, rfl⟩
    rw [if_neg h1, if_neg h2, if_pos h3]
    split_ifs <;> exact ⟨_, rfl⟩

/-- `unescEsc` decodes exactly the chunk tail `escapeChar` produced. -/
theorem unescEsc_escapeChar {c : Char} {t : List Char} (h : escapeChar c = '\\' :: t)
    (r : List Char) : unescEsc (t ++ r) = some (c.toNat, r) := by
  by_cases h1 : c = '"'
  · subst h1
    have ht : t = ['"'] := by
      rw [show escapeChar '"' = ['\\', '"'] from rfl] at h
      exact (List.cons.injEq _ _ _ _ ▸ h).2.symm
    subst ht; rfl
  by_cases h2 : c = '\\'
  · subst h2
    have ht : t = ['\\'] := by
      rw [show escapeChar '\\' = ['\\', '\\'] from rfl] at h
      exact (List.cons.injEq _ _ _ _ ▸ h).2.symm
    subst ht; rfl
  by_cases h3 : c.toNat < 32
  case neg =>
    exfalso
    rw [escapeChar, if_neg h1, if_neg h2, if_neg h3] at h
    exact h2 (List.cons.injEq _ _ _ _ ▸ h).1
  by_cases h4 : c.toNat = 8
  · have hc : c = '\x08' := char_toNat_inj h4
    subst hc
    have ht : t = ['b'] := by
      rw [show escapeChar '\x08' = ['\\', 'b'] from rfl] at h
      exact (List.cons.injEq _ _ _ _ ▸ h).2.symm
    subst ht; rfl
  by_cases h5 : c.toNat = 9
  · have hc : c = '\x09' := char_toNat_inj h5
    subst hc
    have ht : t = ['t'] := by
      rw [show escapeChar '\x09' = ['\\', 't'] from rfl] at h
      exact (List.cons.injEq _ _ _ _ ▸ h).2.symm
    subst ht; rfl
  by_cases h6 : c.toNat = 10
  · have hc : c = '\x0a' := char_toNat_inj h6
    subst hc
    have ht : t = ['n'] := by
      rw [show escapeChar '\x0a' = ['\\', 'n'] from rfl] at h
      exact (List.cons.injEq _ _ _ _ ▸ h).2.symm
    subst ht; rfl
  by_cases h7 : c.toNat = 12
  · have hc : c = '\x0c' := char_toNat_inj h7
    subst hc
    have ht : t = ['f'] := by
      rw [show escapeChar '\x0c' = ['\\', 'f'] from rfl] at h
      exact (List.cons.injEq _ _ _ _ ▸ h).2.symm
    subst ht; rfl
  by_cases h8 : c.toNat = 13
  · have hc : c = '\x0d' := char_toNat_inj h8
    subst hc
    have ht : t = ['r'] := by
      rw [show escapeChar '\x0d' = ['\\', 'r'] from rfl] at h
      exact (List.cons.injEq _ _ _ _ ▸ h).2.symm
    subst ht; rfl
  have ht : t = ['u', '0', '0', hexChar (c.toNat / 16), hexChar (c.toNat % 16)] := by
    rw [escapeChar, if_neg h1, if_neg h2, if_pos h3, if_neg h4, if_neg h5, if_neg h6,
      if_neg h7, if_neg h8] at h
    exact (List.cons.injEq _ _ _ _ ▸ h).2.symm
  subst ht
  have hstep : unescEsc (['u', '0', '0', hexChar (c.toNat / 16), hexChar (c.toNat % 16)] ++ r) =
      some (16 * hexVal (hexChar (c.toNat / 16)) + hexVal (hexChar (c.toNat % 16)), r) := rfl
  rw [hstep, hexVal_hexChar _ (by omega), hexVal_hexChar _ (Nat.mod_lt _ (by omega))]
  have hsum : 16 * (c.toNat / 16) + c.toNat % 16 = c.toNat := by omega
  rw [hsum]

/-- Two escaped characters followed by arbitrary rests align. -/
theorem escapeChar_cancel {c1 c2 : Char} {x1 x2 : List Char}
    (h : escapeChar c1 ++ x1 = escapeChar c2 ++ x2) : c1 = c2 ∧ x1 = x2 := by
  cases e1 : needsEscape c1 with
  | false =>
    cases e2 : needsEscape c2 with
    | false =>
      rw [escapeChar_of_plain e1, escapeChar_of_plain e2] at h
      simpa using h
    | true =>
      obtain ⟨t2, ht2⟩ := escapeChar_of_escaped e2
      rw [escapeChar_of_plain e1, ht2] at h
      have hc1 : c1 = '\\' := (List.cons.injEq _ _ _ _ ▸ h).1
      rw [hc1] at e1
      cases e1
  | true =>
    cases e2 : needsEscape c2 with
    | false =>
      obtain ⟨t1, ht1⟩ := escapeChar_of_escaped e1
      rw [escapeChar_of_plain e2, ht1] at h
      have hc2 : c2 = '\\' := ((List.cons.injEq _ _ _ _ ▸ h).1).symm
      rw [hc2] at e2
      cases e2
    | true =>
      obtain ⟨t1, ht1⟩ := escapeChar_of_escaped e1
      obtain ⟨t2, ht2⟩ := escapeChar_of_escaped e2
      rw [ht1, ht2] at h
      have htails : t1 ++ x1 = t2 ++ x2 := (List.cons.injEq _ _ _ _ ▸ h).2
      have hu1 := unescEsc_escapeChar ht1 x1
      rw [htails, unescEsc_escapeChar ht2 x2] at hu1
      simp only [Option.some.injEq, Prod.mk.injEq] at hu1
      exact ⟨(char_toNat_inj hu1.1).symm, hu1.2.symm⟩

/-- Every escape chunk is nonempty and never starts with a quote. -/
theorem escapeChar_head (c : Char) : ∃ d t, escapeChar c = d :: t ∧ d ≠ '"' := by
  rw [escapeChar]
  split_ifs with h1 h2 h3 h4 h5 h6 h7 h8
  any_goals exact ⟨'\\', _, rfl, by decide⟩
  exact ⟨c, [], rfl, h1⟩

/-- An escaped string body terminated by its closing quote is determined. -/
theorem esc_split (s1 : List Char) : ∀ (s2 r1 r2 : List Char),
    escapeList s1 ++ '"' :: r1 = escapeList s2 ++ '"' :: r2 →
    s1 = s2 ∧ r1 = r2 := by
  induction s1 with
  | nil =>
    intro s2 r1 r2 heq
    cases s2 with
    | nil => simpa using heq
    | cons c s2t =>
      exfalso
      obtain ⟨d, t, hdt, hne⟩ := escapeChar_head c
      rw [show escapeList (c :: s2t) = escapeChar c ++ escapeList s2t from rfl, hdt] at heq
      simp only [escapeList, List.nil_append, List.cons_append, List.append_assoc,
        List.cons.injEq] at heq
      exact hne heq.1.symm
  | cons a s1t ih =>
    intro s2 r1 r2 heq
    cases s2 with
    | nil =>
      exfalso
      obtain ⟨d, t, hdt, hne⟩ := escapeChar_head a
      rw [show escapeList (a :: s1t) = escapeChar a ++ escapeList s1t from rfl, hdt] at heq
      simp only [escapeList, List.nil_append, List.cons_append, List.append_assoc,
        List.cons.injEq] at heq
      exact hne heq.1
    | cons b s2t =>
      rw [show escapeList (a :: s1t) = escapeChar a ++ escapeList s1t from rfl,
        show escapeList (b :: s2t) = escapeChar b ++ escapeList s2t from rfl,
        List.append_assoc, List.append_assoc] at heq
      obtain ⟨hab, htail⟩ := escapeChar_cancel heq
      obtain ⟨h1, h2⟩ := ih s2t r1 r2 htail
      exact ⟨by rw [hab, h1], h2⟩

/-- A serialized transaction followed by any rest is determined. -/
theorem serTransactionL_cancel {t1 t2 : Transaction} {r1 r2 : List Char}
    (h : serTransactionL t1 ++ r1 = serTransactionL t2 ++ r2) : t1 = t2 ∧ r1 = r2 := by
  simp only [serTransactionL, List.append_assoc, List.cons_append, List.nil_append] at h
  replace h := List.append_cancel_left h
  obtain ⟨hs, h⟩ := esc_split _ _ _ _ h
  replace h := List.append_cancel_left h
  obtain ⟨hr, h⟩ := esc_split _ _ _ _ h
  replace h := List.append_cancel_left h
  obtain ⟨ha, hrest⟩ := natDigits_append_inj (headNotDig_cons (by decide) _)
    (headNotDig_cons (by decide) _) h
  obtain ⟨t1s, t1r, t1a⟩ := t1
  obtain ⟨t2s, t2r, t2a⟩ := t2
  simp only [List.cons.injEq, true_and] at hrest
  have e1 : t1s = t2s := string_data_inj hs
  have e2 : t1r = t2r := string_data_inj hr
  have e3 : t1a = t2a := ha
  exact ⟨by rw [e1, e2, e3], hrest⟩

/-- The head of a serialized transaction is an opening brace. -/
theorem serTransactionL_head (t : Transaction) :
    ∃ l, serTransactionL t = '\x7b' :: l :=
  ⟨_, rfl⟩

/-- The tail encoding of a transaction list followed by any rest is
determined. -/
theorem serTxTail_cancel (ts1 : List Transaction) :
    ∀ (ts2 : List Transaction) (r1 r2 : List Char),
    serTxTail ts1 ++ r1 = serTxTail ts2 ++ r2 → ts1 = ts2 ∧ r1 = r2 := by
  induction ts1 with
  | nil =>
    intro ts2 r1 r2 h
    cases ts2 with
    | nil => simpa [serTxTail] using h
    | cons u ts2t =>
      exfalso
      simp only [serTxTail, List.cons_append, List.cons.injEq] at h
      exact absurd h.1 (by decide)
  | cons t ts1t ih =>
    intro ts2 r1 r2 h
    cases ts2 with
    | nil =>
      exfalso
      simp only [serTxTail, List.cons_append, List.cons.injEq] at h
      exact absurd h.1 (by decide)
    | cons u ts2t =>
      simp only [serTxTail, List.cons_append, List.cons.injEq, List.append_assoc] at h
      obtain ⟨htu, htail⟩ := serTransactionL_cancel h.2
      obtain ⟨h1, h2⟩ := ih ts2t r1 r2 htail
      exact ⟨by rw [htu, h1], h2⟩

/-- A serialized transaction vector followed by any rest is determined. -/
theorem serTxsL_cancel {ts1 ts2 : List Transaction} {r1 r2 : List Char}
    (h : serTxsL ts1 ++ r1 = serTxsL ts2 ++ r2) : ts1 = ts2 ∧ r1 = r2 := by
  cases ts1 with
  | nil =>
    cases ts2 with
    | nil => simpa [serTxsL] using h
    | cons u ts2t =>
      exfalso
      obtain ⟨l, hl⟩ := serTransactionL_head u
      simp only [serTxsL, hl, List.cons_append, List.cons.injEq, List.append_assoc] at h
      exact absurd h.2.1 (by decide)
  | cons t ts1t =>
    cases ts2 with
    | nil =>
      exfalso
      obtain ⟨l, hl⟩ := serTransactionL_head t
      simp only [serTxsL, hl, List.cons_append, List.cons.injEq, List.append_assoc] at h
      exact absurd h.2.1 (by decide)
    | cons u ts2t =>
      simp only [serTxsL, List.cons_append, List.cons.injEq, List.append_assoc] at h
      obtain ⟨htu, htail⟩ := serTransactionL_cancel h.2
      obtain ⟨h1, h2⟩ := serTxTail_cancel ts1t ts2t r1 r2 htail
      exact ⟨by rw [htu, h1], h2⟩

/-- `serBlockL` is injective: the serde_json encoding of a block determines
every field of the block. -/
theorem serBlockL_inj {b1 b2 : Block} (h : serBlockL b1 = serBlockL b2) : b1 = b2 := by
  have h2 : serBlockL b1 ++ [] = serBlockL b2 ++ [] := by simpa using h
  simp only [serBlockL, lit_index, lit_timestamp, lit_pow, lit_prevhash, lit_transactions,
    lit_hash, List.append_assoc, List.cons_append, List.nil_append, List.cons.injEq,
    true_and] at h2
  obtain ⟨hidx, h2⟩ := natDigits_append_inj (headNotDig_cons (by decide) _)
    (headNotDig_cons (by decide) _) h2
  simp only [List.cons.injEq, true_and] at h2
  obtain ⟨hts, h2⟩ := natDigits_append_inj (headNotDig_cons (by decide) _)
    (headNotDig_cons (by decide) _) h2
  simp only [List.cons.injEq, true_and] at h2
  obtain ⟨hpw, h2⟩ := natDigits_append_inj (headNotDig_cons (by decide) _)
    (headNotDig_cons (by decide) _) h2
  simp only [List.cons.injEq, true_and] at h2
  obtain ⟨hph, h2⟩ := esc_split _ _ _ _ h2
  simp only [List.cons.injEq, true_and] at h2
  obtain ⟨htx, h2⟩ := serTxsL_cancel h2
  simp only [List.cons.injEq, true_and] at h2
  obtain ⟨hh, h2⟩ := esc_split _ _ _ _ h2
  obtain ⟨i1, s1, p1, ph1, tx1, hs1⟩ := b1
  obtain ⟨i2, s2, p2, ph2, tx2, hs2⟩ := b2
  have e0 : i1 = i2 := hidx
  have e1 : s1 = s2 := hts
  have e2 : p1 = p2 := hpw
  have e3 : tx1 = tx2 := htx
  have e4 : ph1 = ph2 := string_data_inj hph
  have e6 : hs1 = hs2 := string_data_inj hh
  rw [e0, e1, e2, e3, e4, e6]

/-! ## Digest bounds and the canonical-hash claims -/

/-- `u32` wrapping stays below `2^32`. -/
theorem w32_lt (x : Nat) : w32 x < 4294967296 := Nat.mod_lt _ (by omega)

/-- Every word produced by the compression function is below `2^32`. -/
theorem compressBlock_mem_lt (hs chunk : List Nat) :
    ∀ w ∈ compressBlock hs chunk, w < 4294967296 := by
  have hshape : ∃ a b c d e f g h2 : Nat, compressBlock hs chunk =
      [w32 a, w32 b, w32 c, w32 d, w32 e, w32 f, w32 g, w32 h2] :=
    ⟨_, _, _, _, _, _, _, _, rfl⟩
  obtain ⟨a, b, c, d, e, f, g, h2, heq⟩ := hshape
  rw [heq]
  intro w hw
  simp only [List.mem_cons, List.not_mem_nil, or_false] at hw
  rcases hw with h | h | h | h | h | h | h | h <;> (subst h; exact w32_lt _)

/-- The compression function returns eight words. -/
theorem compressBlock_length (hs chunk : List Nat) : (compressBlock hs chunk).length = 8 := rfl

/-- Folding the compression function preserves the shape of the hash state. -/
theorem foldl_compress_facts (chunks : List (List Nat)) :
    ∀ hs : List Nat, hs.length = 8 → (∀ w ∈ hs, w < 4294967296) →
      (chunks.foldl compressBlock hs).length = 8 ∧
        ∀ w ∈ chunks.foldl compressBlock hs, w < 4294967296 := by
  induction chunks with
  | nil => intro hs h1 h2; exact ⟨h1, h2⟩
  | cons c cs ih =>
    intro hs h1 h2
    exact ih (compressBlock hs c) (compressBlock_length hs c) (compressBlock_mem_lt hs c)

/-- The base-`2^32` accumulation of bounded words is bounded. -/
theorem foldl_base_lt (ws : List Nat) : ∀ acc A : Nat, acc < A →
    (∀ w ∈ ws, w < 4294967296) →
    ws.foldl (fun a w => a * 4294967296 + w) acc < A * 4294967296 ^ ws.length := by
  induction ws with
  | nil => intro acc A ha _; simpa using ha
  | cons w ws ih =>
    intro acc A ha hw
    have hwlt : w < 4294967296 := hw w (by simp)
    have h1 : acc * 4294967296 + w < A * 4294967296 := by omega
    have h2 := ih (acc * 4294967296 + w) (A * 4294967296) h1
      (fun x hx => hw x (by simp [hx]))
    calc (w :: ws).foldl (fun a w => a * 4294967296 + w) acc
        = ws.foldl (fun a w => a * 4294967296 + w) (acc * 4294967296 + w) := rfl
      _ < A * 4294967296 * 4294967296 ^ ws.length := h2
      _ = A * 4294967296 ^ (w :: ws).length := by
          rw [List.length_cons, pow_succ]; ring

/-- The final SHA-256 state is eight words below `2^32`. -/
theorem sha256Words_facts (msg : List Nat) :
    (sha256Words msg).length = 8 ∧ ∀ w ∈ sha256Words msg, w < 4294967296 :=
  foldl_compress_facts (chunk64 (sha_pad msg)) hInitial rfl (by decide)

/-- A SHA-256 digest denotes a number below `2^256`: the range of the hash is
finite. -/
theorem sha256Nat_lt (msg : List Nat) : sha256Nat msg < 2 ^ 256 := by
  obtain ⟨hlen, hmem⟩ := sha256Words_facts msg
  have h := foldl_base_lt (sha256Words msg) 0 1 (by omega) hmem
  rw [sha256Nat, digestNat]
  calc (sha256Words msg).foldl (fun a w => a * 4294967296 + w) 0
      < 1 * 4294967296 ^ (sha256Words msg).length := h
    _ = 2 ^ 256 := by rw [hlen]; norm_num

/-- C8 (amended): `generate_block_hash` is deterministic and independent of
the stored `hash` field, and the serialized pre-image it feeds to SHA-256 is
injective in the remaining fields — changing any field other than `hash`
changes the SHA-256 input, hence the digest except in the case of a SHA-256
collision (which exists by pigeonhole over the finite digest range but is
computationally infeasible to exhibit). -/
theorem C8_amended_canonical_hash :
    (∀ b1 b2 : Block, b1 = b2 → b1.generate_block_hash = b2.generate_block_hash) ∧
    (∀ b1 b2 : Block, b1.index = b2.index → b1.timestamp = b2.timestamp →
      b1.proof_of_work = b2.proof_of_work → b1.previous_hash = b2.previous_hash →
      b1.transactions = b2.transactions →
      b1.generate_block_hash = b2.generate_block_hash) ∧
    (∀ b1 b2 : Block,
      serde_json_to_string { b1 with hash := "" } =
        serde_json_to_string { b2 with hash := "" } →
      b1.index = b2.index ∧ b1.timestamp = b2.timestamp ∧
      b1.proof_of_work = b2.proof_of_work ∧ b1.previous_hash = b2.previous_hash ∧
      b1.transactions = b2.transactions) := by
  refine ⟨fun b1 b2 h => by rw [h], fun b1 b2 h1 h2 h3 h4 h5 => ?_, fun b1 b2 h => ?_⟩
  · have hcleared : ({ b1 with hash := "" } : Block) = { b2 with hash := "" } := by
      show Block.mk b1.index b1.timestamp b1.proof_of_work b1.previous_hash b1.transactions "" =
        Block.mk b2.index b2.timestamp b2.proof_of_work b2.previous_hash b2.transactions ""
      rw [h1, h2, h3, h4, h5]
    rw [Block.generate_block_hash, Block.generate_block_hash, hcleared]
  · obtain ⟨i1, s1, p1, ph1, tx1, hs1⟩ := b1
    obtain ⟨i2, s2, p2, ph2, tx2, hs2⟩ := b2
    have hblk := serBlockL_inj (congrArg String.data h)
    injection hblk with e1 e2 e3 e4 e5 e6
    exact ⟨e1, e2, e3, e4, e5⟩

/-- Witness for the amended C8: two concrete blocks differing only in `hash`
have equal canonical hashes. -/
theorem C8_amended_witness :
    Block.generate_block_hash (Block.mk 0 0 0 "p" [] "old") =
      Block.generate_block_hash (Block.mk 0 0 0 "p" [] "new") :=
  C8_amended_canonical_hash.2.1 _ _ rfl rfl rfl rfl rfl

/-- Counterexample to C8 as stated: "the digest changes if any field other
than `hash` changes" fails — SHA-256 has finitely many digests while blocks
differ in infinitely many `previous_hash` values, so by pigeonhole two blocks
equal except for `previous_hash` share a canonical hash. -/
theorem C8_counterexample_digest_collision :
    ¬ (∀ b1 b2 : Block, b1.generate_block_hash = b2.generate_block_hash →
        b1.index = b2.index ∧ b1.timestamp = b2.timestamp ∧
        b1.proof_of_work = b2.proof_of_work ∧ b1.previous_hash = b2.previous_hash ∧
        b1.transactions = b2.transactions) := by
  intro hclaim
  obtain ⟨m, n, hmn, hfeq⟩ := Finite.exists_ne_map_eq_of_infinite
    (fun k : Nat =>
      (⟨sha256Nat (utf8Bytes (serde_json_to_string { phBlock k with hash := "" })),
        sha256Nat_lt _⟩ : Fin (2 ^ 256)))
  have hv : sha256Nat (utf8Bytes (serde_json_to_string { phBlock m with hash := "" })) =
      sha256Nat (utf8Bytes (serde_json_to_string { phBlock n with hash := "" })) :=
    congrArg Fin.val hfeq
  have hhash : (phBlock m).generate_block_hash = (phBlock n).generate_block_hash := by
    simp only [Block.generate_block_hash, sha256hex]
    rw [hv]
  have hph := (hclaim _ _ hhash).2.2.2.1
  have hrep : List.replicate m 'a' = List.replicate n 'a' := congrArg String.data hph
  have hlen : m = n := by
    have := congrArg List.length hrep
    simpa using this
  exact hmn hlen

/-- Witness for C6: the length-1 sample chain is accepted as valid. -/
theorem C6_witness : bcSample.is_chain_valid [sampleGenesis] = true :=
  (C6_is_chain_valid_pairwise bcSample [sampleGenesis]).2 (by decide)
